import Mathlib

/-!
Verification development for `src/policy/runtime.py` of the congress policy
runtime.  The Python source is shallowly embedded: Python classes become Lean
structures, mutable updates become explicit state passing, dictionaries become
functions with a default (a Python dict key bound to the empty list behaves,
for every operation of this file's scope, exactly like an absent key, which is
noted where it is used), and fallible code returns `Except`.

The modules `compile` and `unify` imported by the source are not part of the
repository snapshot; the handful of operations the embedded code consumes from
them (structural equality of AST nodes, `argument_names`, `plug`,
`bi_unify_atoms`, `apply_full`) are modelled from the spec where they are
defined, and each such definition carries a doc comment saying so.
-/

set_option maxRecDepth 4000

/-- Term AST (`compile.Variable` / `compile.ObjectConstant`).
Modelled from the spec: `Term` is `Variable(name)` or `ObjectConstant(value)`;
equality is structural.  The constant's numeric/string type tag plays no role
in the embedded code and is collapsed into the value. -/
inductive PTerm where
  | var (name : String)
  | obj (val : String)
deriving DecidableEq, Repr

/-- Literal AST (`compile.Atom` / `compile.Literal`).
Modelled from the spec: an atom is `(table, [Term])`; a literal is an atom
with a polarity bit, and literals appear in rule bodies. -/
structure Lit where
  table : String
  args : List PTerm
  negated : Bool
deriving DecidableEq, Repr

/-- Modelled from the spec: `complement()` flips the polarity of a literal. -/
def Lit.complement (l : Lit) : Lit :=
  ⟨l.table, l.args, !l.negated⟩

/-- Modelled from the spec: a term is ground when it is not a variable. -/
def PTerm.isGroundT : PTerm → Bool
  | PTerm.var _ => false
  | PTerm.obj _ => true

/-- Modelled from the spec: a literal is ground when all arguments are. -/
def Lit.isGroundB (l : Lit) : Bool :=
  l.args.all PTerm.isGroundT

/-- Rule AST (`compile.Rule`): `(head: Atom, body: [Literal])`.
Modelled from the spec; equality is structural. -/
structure PRule where
  head : Lit
  body : List Lit
deriving DecidableEq, Repr

/-- Modelled from the spec: a rule with empty body is equivalent to an atom;
`is_atom()` on a formula reaching `compute_delta_rules` holds exactly for the
zero-body case ("Atoms (zero-body rules) are skipped"). -/
def PRule.isAtomB (r : PRule) : Bool :=
  r.body.isEmpty

/-- A formula at the facade boundary is either an `Atom` object or a `Rule`
object; `isinstance` checks in the source dispatch on the class. -/
inductive Formula where
  | atomF (a : Lit)
  | ruleF (r : PRule)
deriving DecidableEq, Repr

/-- `Database.Proof`: `(binding, rule)`; two proofs are equal iff both
components are (source `Database.Proof.__eq__`).  The binding here is the
flattened dictionary binding produced by top-down evaluation. -/
structure PfProof where
  binding : List (String × PTerm)
  rule : PRule
deriving DecidableEq, Repr

/-! ### Events (`Event.__init__` / `Event.__eq__`), for C9.

Python objects carry their attributes in a per-instance dictionary; attribute
access on a missing key raises `AttributeError`.  `EventObj` embeds exactly
that dictionary for `Event` instances, so that the partiality of attribute
access is visible. -/

/-- A value storable in an `Event` attribute slot. -/
inductive PyVal where
  | fml (f : Formula)
  | pfs (ps : List PfProof)
  | bl (b : Bool)
deriving DecidableEq, Repr

/-- A constructed `Event` object: its attribute dictionary. -/
structure EventObj where
  attrs : List (String × PyVal)
deriving DecidableEq, Repr

/-- `Event.__init__(formula, insert, proofs)`: sets exactly the attributes
`formula`, `proofs` and `insert` (a `None` proofs argument becomes `[]`
before assignment, so the stored value is always a list). -/
def eventInit (formula : Formula) (ins : Bool) (proofs : List PfProof) : EventObj :=
  ⟨[("formula", PyVal.fml formula), ("proofs", PyVal.pfs proofs),
    ("insert", PyVal.bl ins)]⟩

/-- Python attribute read: returns the stored value, or raises
`AttributeError` when the instance dictionary has no such key. -/
def pyGetattr (e : EventObj) (name : String) : Except String PyVal :=
  match e.attrs.lookup name with
  | some v => Except.ok v
  | none => Except.error ("AttributeError: " ++ name)

/-- `Event.__eq__`: `self.atom == other.atom and self.proofs == other.proofs
and self.insert == other.insert`.  Each attribute read may raise; the reads
happen left to right, so a missing `atom` attribute raises before anything is
compared. -/
def eventEq (a b : EventObj) : Except String Bool := do
  let x ← pyGetattr a "atom"
  let y ← pyGetattr b "atom"
  let p ← pyGetattr a "proofs"
  let q ← pyGetattr b "proofs"
  let i ← pyGetattr a "insert"
  let j ← pyGetattr b "insert"
  pure (x == y && p == q && i == j)

/-! ### ProofCollection operations (`Database.ProofCollection`).

The collection is a list; membership uses proof equality. -/

/-- `ProofCollection.__ge__(iterable)` (also reached by the source's
`event.proofs <= dbtuple.proofs`): every proof of `ps` occurs in `stored`. -/
def pcAllIn (ps stored : List PfProof) : Bool :=
  ps.all (fun p => stored.contains p)

/-- `ProofCollection.__ior__`: append each proof of `ys` not already present;
the collection grows during the loop, so duplicates inside `ys` are also
collapsed. -/
def pcUnion (xs ys : List PfProof) : List PfProof :=
  ys.foldl (fun acc p => if acc.contains p then acc else acc ++ [p]) xs

/-- `ProofCollection.__isub__`: keep the proofs not present in `ys`. -/
def pcSub (xs ys : List PfProof) : List PfProof :=
  xs.filter (fun p => !(ys.contains p))

/-! ### Database (`Database`), for C2 and C3. -/

/-- `Database.DBTuple`: a tuple of constant values plus its proof
collection. -/
structure DBTuple where
  tuple : List String
  proofs : List PfProof
deriving DecidableEq, Repr

/-- Modelled from the spec: `argument_names()` returns the constants of a
ground atom.  On a variable it yields the variable's name, matching the
attribute the source reads. -/
def argumentNames (a : Lit) : List String :=
  a.args.map (fun t => match t with | PTerm.var n => n | PTerm.obj v => v)

/-- `Database.data`: `{table → [DBTuple]}`.  A Python dict is embedded as a
total function with default `[]`; the source's `table not in self.data`
branches coincide with the `[]` case in every Database operation (`is_noop`,
`insert`, `delete` all treat an absent table and an empty tuple list
identically). -/
abbrev Database := String → List DBTuple

/-- Point update of an embedded dict. -/
def fupdate {α : Type} (f : String → α) (k : String) (v : α) : String → α :=
  fun x => if x = k then v else f x

/-- The scan inside `Database.is_noop`: walk the table's tuples; report
whether some tuple equals `raw` with the event's proofs contained in its
stored proofs (the loop keeps scanning past a tuple match whose proofs are
not contained). -/
def noopScanList (raw : List String) (ps : List PfProof) : List DBTuple → Bool
  | [] => false
  | d :: rest =>
      if d.tuple = raw ∧ pcAllIn ps d.proofs then true
      else noopScanList raw ps rest

/-- `Database.is_noop(event)`: for an insert the event is a noop exactly when
the scan finds a containing tuple; for a delete exactly when it does not. -/
def isNoop (db : Database) (a : Lit) (ins : Bool) (ps : List PfProof) : Bool :=
  let found := noopScanList (argumentNames a) ps (db a.table)
  if ins then found else !found

/-- The loop of `Database.insert`: merge the incoming proofs into the first
tuple with equal fields, else append the new tuple at the end. -/
def insertTuples (x : DBTuple) : List DBTuple → List DBTuple
  | [] => [x]
  | d :: rest =>
      if d.tuple = x.tuple then ⟨d.tuple, pcUnion d.proofs x.proofs⟩ :: rest
      else d :: insertTuples x rest

/-- `Database.insert(atom, proofs)`. -/
def dbInsert (db : Database) (a : Lit) (ps : List PfProof) : Database :=
  fupdate db a.table (insertTuples ⟨argumentNames a, ps⟩ (db a.table))

/-- The loop of `Database.delete`: at the first tuple with equal fields,
subtract the proofs and drop the tuple if none remain; later tuples are not
inspected. -/
def deleteTuples (x : DBTuple) : List DBTuple → List DBTuple
  | [] => []
  | d :: rest =>
      if d.tuple = x.tuple then
        let remaining := pcSub d.proofs x.proofs
        if remaining.isEmpty then rest else ⟨d.tuple, remaining⟩ :: rest
      else d :: deleteTuples x rest

/-- `Database.delete(atom, proofs)`. -/
def dbDelete (db : Database) (a : Lit) (ps : List PfProof) : Database :=
  fupdate db a.table (deleteTuples ⟨argumentNames a, ps⟩ (db a.table))

/-- `Database.modify(atom, is_insert, proofs)`: noop check first; on a noop
return no events and leave storage untouched, otherwise perform the
insert/delete and return the single echoing event. -/
def dbModify (db : Database) (a : Lit) (ins : Bool) (ps : List PfProof) :
    List EventObj × Database :=
  if isNoop db a ins ps then ([], db)
  else
    ([eventInit (Formula.atomF a) ins ps],
     if ins then dbInsert db a ps else dbDelete db a ps)

/-- One external operation on a Database, for the C3 invariant. -/
inductive DbOp where
  | insOp (a : Lit) (ps : List PfProof)
  | delOp (a : Lit) (ps : List PfProof)
  | modOp (a : Lit) (ins : Bool) (ps : List PfProof)
deriving Repr

/-- Apply one operation. -/
def applyOp (db : Database) : DbOp → Database
  | DbOp.insOp a ps => dbInsert db a ps
  | DbOp.delOp a ps => dbDelete db a ps
  | DbOp.modOp a ins ps => (dbModify db a ins ps).2

/-- Apply a sequence of operations, first to last. -/
def applyOps (db : Database) (ops : List DbOp) : Database :=
  ops.foldl applyOp db

/-- The C3 invariant: within every table, no two stored tuples have equal
`tuple` fields. -/
def TupleUniq (db : Database) : Prop :=
  ∀ t, (db t).Pairwise (fun d e => d.tuple ≠ e.tuple)

/-! ### Self-join elimination and delta rules (`DeltaRuleTheory`),
for C5, C6 and C10. -/

/-- `new_table_name(name, arity, index)` inside `eliminate_self_joins`. -/
def newTableName (t : String) (a k : Nat) : String :=
  "___" ++ t ++ "_" ++ toString a ++ "_" ++ toString k

/-- The `(table, arity)` key used by the occurrence counters. -/
def keyOf (l : Lit) : String × Nat :=
  (l.table, l.args.length)

/-- Set a key in an occurrence-counter dict (insertion order kept). -/
def aset (xs : List ((String × Nat) × Nat)) (k : String × Nat) (v : Nat) :
    List ((String × Nat) × Nat) :=
  match xs with
  | [] => [(k, v)]
  | (k', v') :: rest => if k' = k then (k, v) :: rest else (k', v') :: aset rest k v

/-- The per-rule body loop of `eliminate_self_joins`: thread the per-rule
`occurrences` dict and the cross-rule `global_self_joins` dict over the body.
A first occurrence of a `(table, arity)` key is kept; a repeat is renamed to
the synthetic table (the source assigns `atom.table` in place — the embedding
returns the rewritten body that the mutated rule object holds afterwards)
and the counters are bumped. -/
def elimGo (occ gsj : List ((String × Nat) × Nat)) :
    List Lit → List Lit × List ((String × Nat) × Nat) × List ((String × Nat) × Nat)
  | [] => ([], occ, gsj)
  | atom :: rest =>
      let k := keyOf atom
      match occ.lookup k with
      | none =>
          let (rest', occ', gsj') := elimGo (aset occ k 1) gsj rest
          (atom :: rest', occ', gsj')
      | some c =>
          let renamed : Lit := ⟨newTableName atom.table atom.args.length c, atom.args, atom.negated⟩
          let gsj1 :=
            match gsj.lookup k with
            | none => aset gsj k 1
            | some g => aset gsj k (max ((c + 1) - 1) g)
          let (rest', occ', gsj') := elimGo (aset occ k (c + 1)) gsj1 rest
          (renamed :: rest', occ', gsj')

/-- `n_variables(n)` as terms: the variables `x0 … x(n-1)`. -/
def nVars (n : Nat) : List PTerm :=
  (List.range n).map (fun i => PTerm.var ("x" ++ toString i))

/-- The trailing loop of `eliminate_self_joins`: one definition rule
`___t_a_i(x0,…) :- t(x0,…)` per synthetic table, `i` from 1 to the recorded
maximum. -/
def wrapRules (gsj : List ((String × Nat) × Nat)) : List PRule :=
  gsj.foldr
    (fun kv acc =>
      ((List.range kv.2).map
        (fun i0 =>
          ({ head := ⟨newTableName kv.1.1 kv.1.2 (i0 + 1), nVars kv.1.2, false⟩,
             body := [⟨kv.1.1, nVars kv.1.2, false⟩] } : PRule))) ++ acc)
    []

/-- The main loop of `eliminate_self_joins` over a list of formulas: atoms
pass through; each rule's body is rewritten; the definition rules for the
synthetic tables are appended at the end. -/
def elimLoop (gsj : List ((String × Nat) × Nat)) :
    List PRule → List PRule × List ((String × Nat) × Nat)
  | [] => ([], gsj)
  | r :: rest =>
      if r.isAtomB then
        let (rs, gsj') := elimLoop gsj rest
        (r :: rs, gsj')
      else
        let (body', _, gsj1) := elimGo [] gsj r.body
        let (rs, gsj') := elimLoop gsj1 rest
        (({ head := r.head, body := body' } : PRule) :: rs, gsj')

/-- `DeltaRuleTheory.eliminate_self_joins(formulas)`. -/
def eliminateSelfJoins (formulas : List PRule) : List PRule :=
  let (rs, gsj) := elimLoop [] formulas
  rs ++ wrapRules gsj

/-- The value held by a rule object after `eliminate_self_joins([r])` has run:
the source renames the repeated body atoms of `r` in place, so the caller's
object afterwards equals the rewritten rule occupying `r`'s position in the
result (see C10). -/
def mutatedRule (r : PRule) : PRule :=
  match eliminateSelfJoins [r] with
  | m :: _ => m
  | [] => r

/-- `DeltaRule`: `(trigger, head, body, original)`. -/
structure DeltaRule where
  trigger : Lit
  head : Lit
  body : List Lit
  original : PRule
deriving DecidableEq, Repr

/-- `DeltaRule.__eq__` compares trigger, head and body — the `original`
field is ignored.  `list.remove` inside `delete_delta` uses this equality. -/
def deltaEq (d e : DeltaRule) : Bool :=
  d.trigger == e.trigger && d.head == e.head && d.body == e.body

/-- The projection that `deltaEq` compares. -/
def projDelta (d : DeltaRule) : Lit × Lit × List Lit :=
  (d.trigger, d.head, d.body)

/-- Erasure of one triple from a projected trigger list (first occurrence,
mirroring `list.remove` under the source's delta equality). -/
def eraseProj (l : List (Lit × Lit × List Lit)) (a : Lit × Lit × List Lit) :
    List (Lit × Lit × List Lit) :=
  l.eraseP (fun x => decide (x = a))

/-- The inner loop of `compute_delta_rules` for one (self-join-free) rule:
one delta rule per body literal, with that literal as trigger and the body
with it removed (removal is by object identity in the source, i.e. by
position: the parser allocates each body literal separately). -/
def deltaDecomp (r : PRule) : List DeltaRule :=
  r.body.enum.map (fun p => ⟨p.2, r.head, r.body.eraseIdx p.1, r⟩)

/-- `DeltaRuleTheory.compute_delta_rules(formulas)`: eliminate self-joins,
then decompose every non-atom result. -/
def computeDeltaRules (fs : List PRule) : List DeltaRule :=
  (eliminateSelfJoins fs).foldr
    (fun r acc => if r.isAtomB then acc else deltaDecomp r ++ acc) []

/-- `DeltaRuleTheory`'s indexed state.  The three dicts are embedded as total
functions: a count of 0 is an absent key (`insert_delta` adds to the stored
count or starts at 1; `delete_delta` decrements and deletes the key at 0,
which over `Nat` is exactly truncated subtraction by one), and a trigger list
`[]` is an absent `contents` key (the source never removes a `contents` key,
and every read of `contents` treats an absent key as the empty list). -/
structure DRTheory where
  contents : String → List DeltaRule
  originals : List PRule
  views : String → Nat
  all_tables : String → Nat

/-- Increment a counter dict at one key. -/
def finc (f : String → Nat) (t : String) : String → Nat :=
  fun x => if x = t then f x + 1 else f x

/-- Decrement a counter dict at one key (`if table in d: d[t] -= 1; del at
0` — over `Nat` with 0 as absent this is truncated subtraction). -/
def fdec (f : String → Nat) (t : String) : String → Nat :=
  fun x => if x = t then f x - 1 else f x

/-- Increment at every key of a list in order. -/
def incTables (f : String → Nat) (ts : List String) : String → Nat :=
  ts.foldl finc f

/-- Decrement at every key of a list in order. -/
def decTables (f : String → Nat) (ts : List String) : String → Nat :=
  ts.foldl fdec f

/-- `DeltaRule.tables()`: the set of tables of head, trigger and body.  The
Python set is embedded as the deduplicated list; only which tables occur (one
count each) matters to the counter updates. -/
def deltaTables (d : DeltaRule) : List String :=
  (d.head.table :: d.trigger.table :: d.body.map Lit.table).dedup

/-- `DeltaRuleTheory.insert_delta(delta)`. -/
def insertDelta (th : DRTheory) (d : DeltaRule) : DRTheory :=
  { contents := fupdate th.contents d.trigger.table (th.contents d.trigger.table ++ [d]),
    originals := th.originals,
    views := finc th.views d.head.table,
    all_tables := incTables th.all_tables (deltaTables d) }

/-- `DeltaRuleTheory.delete_delta(delta)`: `list.remove` erases the first
element equal under `DeltaRule.__eq__`. -/
def deleteDelta (th : DRTheory) (d : DeltaRule) : DRTheory :=
  { contents := fupdate th.contents d.trigger.table
      ((th.contents d.trigger.table).eraseP (fun e => deltaEq e d)),
    originals := th.originals,
    views := fdec th.views d.head.table,
    all_tables := decTables th.all_tables (deltaTables d) }

/-- `set.add` on `originals`: a rule equal to a stored one is not re-added. -/
def pySetAdd (xs : List PRule) (r : PRule) : List PRule :=
  if r ∈ xs then xs else xs ++ [r]

/-- `DeltaRuleTheory.insert(rule)`: membership check on the unmutated rule,
then delta insertion; `compute_delta_rules` renames the rule's body in place,
so the object added to `originals` is the mutated rule. -/
def drInsert (th : DRTheory) (r : PRule) : DRTheory :=
  if r ∈ th.originals then th
  else
    let th' := (computeDeltaRules [r]).foldl insertDelta th
    { contents := th'.contents,
      originals := pySetAdd th'.originals (mutatedRule r),
      views := th'.views,
      all_tables := th'.all_tables }

/-- `DeltaRuleTheory.delete(rule)`: recompute the delta rules of the given
rule and remove them; then remove the rule from `originals`. -/
def drDelete (th : DRTheory) (r : PRule) : DRTheory :=
  if r ∈ th.originals then
    let th' := (computeDeltaRules [r]).foldl deleteDelta th
    { contents := th'.contents,
      originals := th'.originals.erase r,
      views := th'.views,
      all_tables := th'.all_tables }
  else th

/-- The empty `DeltaRuleTheory`. -/
def emptyDR : DRTheory :=
  ⟨fun _ => [], [], fun _ => 0, fun _ => 0⟩

/-- No self-join: all body literals have pairwise distinct `(table, arity)`
keys. -/
def NoSelfJoin (r : PRule) : Prop :=
  r.body.Pairwise (fun a b => keyOf a ≠ keyOf b)

instance (r : PRule) : Decidable (NoSelfJoin r) := by
  unfold NoSelfJoin
  exact List.instDecidablePairwise r.body

/-- A self-join: some later body literal repeats an earlier literal's
`(table, arity)` key. -/
def HasSelfJoin (r : PRule) : Prop :=
  ¬ NoSelfJoin r

instance (r : PRule) : Decidable (HasSelfJoin r) := by
  unfold HasSelfJoin
  infer_instance

/-! ### Bi-unification (`unify.BiUnifier` / `unify.bi_unify_atoms`),
for C4 and C7.

`unify.py` is not part of the snapshot.  Modelled from the spec (§4.1): a
BiUnifier maps `(Variable, scope)` to `(Term, scope)`; `apply_full` follows
chains to a fixed point; `bi_unify_atoms` succeeds iff the atoms have the
same table and arity and every argument pair unifies, binding unbound
variables without occurs-check (terms are flat).  Each BiUnifier object is a
scope identified by a `Nat`; the collection of all live unifiers is one
environment.  The source's `undo_all` restores the bindings a trial added;
functionally a caller backtracks by resuming from its pre-trial
environment. -/

/-- All live BiUnifiers: scope id to its binding list (most recent first). -/
abbrev Env := Nat → List (String × (PTerm × Nat))

/-- Add a binding to the unifier in which the variable was resolved
(`binding.add(val, term, …)` after `apply_full` returned that binding). -/
def envAdd (env : Env) (uid : Nat) (v : String) (t : PTerm) (s : Nat) : Env :=
  fun u => if u = uid then (v, (t, s)) :: env u else env u

/-- `apply_full`: resolve a scoped term through chained bindings.  The chain
length is bounded by the number of bindings ever added; the fuel argument is
a bound on it. -/
def applyFull : Nat → Env → PTerm → Nat → PTerm × Nat
  | 0, _, t, s => (t, s)
  | n + 1, env, t, s =>
      match t with
      | PTerm.var v =>
          match (env s).lookup v with
          | some ts => applyFull n env ts.1 ts.2
          | none => (t, s)
      | _ => (t, s)

/-- Unify one scoped argument pair.  Both sides are resolved first; equal
resolved constants succeed silently, a resolved variable on the left (the
rule head side — "prefer to bind vars in rule head") is bound to the right
resolution, a resolved variable on the right is bound to the left
resolution, and an already-equal scoped variable pair adds nothing. -/
def biUnifyPair (n : Nat) (env : Env) (t1 : PTerm) (s1 : Nat) (t2 : PTerm) (s2 : Nat) :
    Option Env :=
  let r1 := applyFull n env t1 s1
  let r2 := applyFull n env t2 s2
  match r1.1, r2.1 with
  | PTerm.obj a, PTerm.obj b => if a = b then some env else none
  | PTerm.var v, _ => if r1 = r2 then some env else some (envAdd env r1.2 v r2.1 r2.2)
  | PTerm.obj _, PTerm.var w => some (envAdd env r2.2 w r1.1 r1.2)

/-- Unify the argument lists pairwise (lengths already checked). -/
def biUnifyArgs (n : Nat) : Env → List PTerm → List PTerm → Nat → Nat → Option Env
  | env, [], [], _, _ => some env
  | env, t1 :: r1, t2 :: r2, s1, s2 =>
      match biUnifyPair n env t1 s1 t2 s2 with
      | none => none
      | some env' => biUnifyArgs n env' r1 r2 s1 s2
  | _, _, _, _, _ => none

/-- `bi_unify_atoms(head, u1, lit, u2)`: same table, same arity, arguments
unify pairwise. -/
def biUnifyAtoms (n : Nat) (env : Env) (h : Lit) (u : Nat) (l : Lit) (s : Nat) :
    Option Env :=
  if h.table = l.table ∧ h.args.length = l.args.length then
    biUnifyArgs n env h.args l.args u s
  else none

/-- Modelled from the spec: `plug(binding)` substitutes each argument by its
resolution under the unifier (a variable left unresolved stays a
variable). -/
def plugLit (n : Nat) (env : Env) (l : Lit) (s : Nat) : Lit :=
  ⟨l.table, l.args.map (fun t => (applyFull n env t s).1), l.negated⟩

/-! ### The top-down engine (`TopDownTheory`), for C4 and C7.

The engine is instantiated at theories whose `head_index` returns rules
indexed by head table and whose `bi_unify` is `bi_unify_atoms` — that is, at
`NonrecursiveRuleTheory` and its `includes` composition (the Database's
DBTuple specialization of the hooks is embedded separately above and is not
needed by the claims about the engine).  The Python call stack of mutually
recursive methods becomes a fuel-indexed mutual recursion; each call consumes
one unit, and every `Except.error "out of fuel"` marks a computation the
source would still be running.  Tracer output (`print_call` etc.) carries no
state and is dropped. -/

/-- `NonrecursiveRuleTheory`: rules indexed by head table, plus the
`includes` composition list. -/
inductive NRTheory where
  | mk (contents : List (String × List PRule)) (includes : List NRTheory)

/-- The rule index of a theory. -/
def NRTheory.contents : NRTheory → List (String × List PRule)
  | NRTheory.mk c _ => c

/-- The `includes` list of a theory. -/
def NRTheory.includes : NRTheory → List NRTheory
  | NRTheory.mk _ i => i

/-- `head_index(table)`: the rules with that head table, `[]` if none. -/
def headIndex (th : NRTheory) (t : String) : List PRule :=
  match th.contents.lookup t with
  | some rs => rs
  | none => []

/-- `TopDownContext`: the body being resolved, a cursor, the scope id of its
unifier, the caller frame, and a depth. -/
inductive Ctx where
  | mk (literals : List Lit) (literalIndex : Nat) (binding : Nat)
       (previous : Option Ctx) (depth : Nat)

/-- Literals of a context. -/
def Ctx.literals : Ctx → List Lit
  | Ctx.mk ls _ _ _ _ => ls

/-- Cursor of a context. -/
def Ctx.literalIndex : Ctx → Nat
  | Ctx.mk _ i _ _ _ => i

/-- Unifier scope of a context. -/
def Ctx.binding : Ctx → Nat
  | Ctx.mk _ _ b _ _ => b

/-- Caller frame of a context. -/
def Ctx.previous : Ctx → Option Ctx
  | Ctx.mk _ _ _ p _ => p

/-- Depth of a context. -/
def Ctx.depth : Ctx → Nat
  | Ctx.mk _ _ _ _ d => d

/-- `TopDownResult`: a flattened binding for the query variables plus the
plugged support literals. -/
structure TDResult where
  binding : List (String × PTerm)
  support : List Lit
deriving DecidableEq, Repr

/-- `TopDownCaller`: query variables, root unifier scope, root theory,
`find_all`, and the save predicate.  The only save predicate the source
constructs (in `abduce`) tests `lit.table in tablenames`, so the predicate is
embedded as the optional tablename list. -/
structure Caller where
  queryVars : List String
  binding : Nat
  theory : NRTheory
  findAll : Bool
  save : Option (List String)

/-- `caller.save is not None and caller.save(lit, binding)`. -/
def savePred (s : Option (List String)) (l : Lit) : Bool :=
  match s with
  | none => false
  | some ts => ts.contains l.table

/-- Error message of the source's groundness assertion. -/
def groundMsg : String := "Negated literals must be ground when evaluated"

/-- Error value marking exhausted fuel. -/
def fuelMsg : String := "out of fuel"

mutual

/-- `TopDownTheory.top_down_eval(context, caller)`: dispatch on the literal
at the cursor — save branch, negation, the `true`/`false` built-ins, or
regular resolution.  Returns the success flag, the results this call appends
to its caller, and the next fresh unifier id. -/
def tdEval (selfTh : NRTheory) (fuel : Nat) (ctx : Ctx) (cl : Caller) (env : Env)
    (support : List (Lit × Nat)) (nid : Nat) :
    Except String (Bool × List TDResult × Nat) :=
  match fuel with
  | 0 => Except.error fuelMsg
  | n + 1 =>
    match ctx.literals.get? ctx.literalIndex with
    | none => Except.error "literal index out of range"
    | some lit =>
      if savePred cl.save lit then
        tdFinish selfTh n (some ctx) cl env (support ++ [(lit, ctx.binding)]) nid true
      else if lit.negated then
        if (plugLit n env lit ctx.binding).isGroundB then
          match tdIncludes selfTh n (Ctx.mk [lit.complement] 0 ctx.binding none (ctx.depth + 1))
              ⟨cl.queryVars, cl.binding, cl.theory, false, none⟩ env [] nid with
          | Except.error e => Except.error e
          | Except.ok (true, _, nid') => Except.ok (false, [], nid')
          | Except.ok (false, _, nid') => tdFinish selfTh n (some ctx) cl env support nid' false
        else Except.error groundMsg
      else if lit.table = "true" then
        tdFinish selfTh n (some ctx) cl env support nid false
      else if lit.table = "false" then
        Except.ok (false, [], nid)
      else
        tdTruth n ctx cl env support nid
termination_by structural fuel

/-- `top_down_truth`: evaluate over the root theory of the caller. -/
def tdTruth (fuel : Nat) (ctx : Ctx) (cl : Caller) (env : Env)
    (support : List (Lit × Nat)) (nid : Nat) :
    Except String (Bool × List TDResult × Nat) :=
  match fuel with
  | 0 => Except.error fuelMsg
  | n + 1 => tdIncludes cl.theory n ctx cl env support nid
termination_by structural fuel

/-- `top_down_includes`: this theory's rules first, then each included
theory; `find_all=false` short-circuits on the first success, and with
`find_all=true` the final return value is `False` regardless. -/
def tdIncludes (selfTh : NRTheory) (fuel : Nat) (ctx : Ctx) (cl : Caller) (env : Env)
    (support : List (Lit × Nat)) (nid : Nat) :
    Except String (Bool × List TDResult × Nat) :=
  match fuel with
  | 0 => Except.error fuelMsg
  | n + 1 =>
    match tdTh selfTh n ctx cl env support nid with
    | Except.error e => Except.error e
    | Except.ok (b1, rs1, nid1) =>
      if b1 ∧ ¬cl.findAll then Except.ok (true, rs1, nid1)
      else
        match tdIncludesRest selfTh.includes n ctx cl env support nid1 with
        | Except.error e => Except.error e
        | Except.ok (b2, rs2, nid2) => Except.ok (b2, rs1 ++ rs2, nid2)
termination_by structural fuel

/-- The loop over `self.includes` inside `top_down_includes`. -/
def tdIncludesRest (ths : List NRTheory) (fuel : Nat) (ctx : Ctx) (cl : Caller) (env : Env)
    (support : List (Lit × Nat)) (nid : Nat) :
    Except String (Bool × List TDResult × Nat) :=
  match fuel with
  | 0 => Except.error fuelMsg
  | n + 1 =>
    match ths with
    | [] => Except.ok (false, [], nid)
    | th :: rest =>
      match tdIncludes th n ctx cl env support nid with
      | Except.error e => Except.error e
      | Except.ok (b1, rs, nid1) =>
        if b1 ∧ ¬cl.findAll then Except.ok (true, rs, nid1)
        else
          match tdIncludesRest rest n ctx cl env support nid1 with
          | Except.error e => Except.error e
          | Except.ok (b, rs2, nid2) => Except.ok (b, rs ++ rs2, nid2)
termination_by structural fuel

/-- `top_down_th`: resolve the cursor literal against every rule whose head
table matches. -/
def tdTh (selfTh : NRTheory) (fuel : Nat) (ctx : Ctx) (cl : Caller) (env : Env)
    (support : List (Lit × Nat)) (nid : Nat) :
    Except String (Bool × List TDResult × Nat) :=
  match fuel with
  | 0 => Except.error fuelMsg
  | n + 1 =>
    match ctx.literals.get? ctx.literalIndex with
    | none => Except.error "literal index out of range"
    | some lit => tdThRules selfTh n lit (headIndex selfTh lit.table) ctx cl env support nid
termination_by structural fuel

/-- The rule loop of `top_down_th`: allocate a fresh unifier, bi-unify the
rule head against the literal, advance directly for a bodyless rule or push
a new context for the body, undo the head unification (resume from the
pre-trial environment) and keep going unless a success short-circuits. -/
def tdThRules (selfTh : NRTheory) (fuel : Nat) (lit : Lit) (rules : List PRule) (ctx : Ctx)
    (cl : Caller) (env : Env) (support : List (Lit × Nat)) (nid : Nat) :
    Except String (Bool × List TDResult × Nat) :=
  match fuel with
  | 0 => Except.error fuelMsg
  | n + 1 =>
    match rules with
    | [] => Except.ok (false, [], nid)
    | r :: rest =>
      match biUnifyAtoms n env r.head nid lit ctx.binding with
      | none => tdThRules selfTh n lit rest ctx cl env support (nid + 1)
      | some env' =>
        let step :=
          if r.body.isEmpty then
            tdFinish selfTh n (some ctx) cl env' support (nid + 1) true
          else
            tdEval selfTh n (Ctx.mk r.body 0 nid (some ctx) (ctx.depth + 1)) cl env'
              support (nid + 1)
        match step with
        | Except.error e => Except.error e
        | Except.ok (succ, rs, nid1) =>
          if succ ∧ ¬cl.findAll then Except.ok (true, rs, nid1)
          else
            match tdThRules selfTh n lit rest ctx cl env support nid1 with
            | Except.error e => Except.error e
            | Except.ok (b, rs2, nid2) => Except.ok (b, rs ++ rs2, nid2)
termination_by structural fuel

/-- `top_down_finish(context, caller, redo)`: with no context left, flatten
the caller's variables through its unifier, plug the support stack, and
record the answer; otherwise advance the cursor or pop to the previous
context.  The `redo` flag only drives trace output in the source. -/
def tdFinish (selfTh : NRTheory) (fuel : Nat) (ctx : Option Ctx) (cl : Caller) (env : Env)
    (support : List (Lit × Nat)) (nid : Nat) (redo : Bool) :
    Except String (Bool × List TDResult × Nat) :=
  match fuel with
  | 0 => Except.error fuelMsg
  | n + 1 =>
    match ctx with
    | none =>
        Except.ok (true,
          [⟨cl.queryVars.map (fun v => (v, (applyFull n env (PTerm.var v) cl.binding).1)),
            support.map (fun p => plugLit n env p.1 p.2)⟩],
          nid)
    | some c =>
        if c.literalIndex < c.literals.length - 1 then
          tdEval selfTh n (Ctx.mk c.literals (c.literalIndex + 1) c.binding c.previous c.depth)
            cl env support nid
        else
          tdFinish selfTh n c.previous cl env support nid redo
termination_by structural fuel

end

/-- `list(set(caller.results))` at the end of `top_down_abduction`.
`TopDownResult` defines neither `__eq__` nor `__hash__`, so the Python set
compares its elements by object identity; every result is freshly
constructed in `top_down_finish`, hence pairwise distinct as objects, and
the set conversion returns the same elements (in an arbitrary order, fixed
here as the list order).  In particular no structural deduplication
happens — see C4. -/
def pyListSet (rs : List TDResult) : List TDResult :=
  rs

/-- `top_down_abduction(variables, literals, binding, find_all, save)` from
a fresh root unifier (scope 0; scopes from 1 up are the fresh unifiers the
run allocates). -/
def topDownAbduction (selfTh : NRTheory) (fuel : Nat) (queryVars : List String)
    (literals : List Lit) (findAll : Bool) (save : Option (List String)) :
    Except String (List TDResult) :=
  let cl : Caller := ⟨queryVars, 0, selfTh, findAll, save⟩
  if literals.isEmpty then
    match tdFinish selfTh fuel none cl (fun _ => []) [] 1 true with
    | Except.error e => Except.error e
    | Except.ok (_, rs, _) => Except.ok (pyListSet rs)
  else
    match tdEval selfTh fuel (Ctx.mk literals 0 0 none 0) cl (fun _ => []) [] 1 with
    | Except.error e => Except.error e
    | Except.ok (_, rs, _) => Except.ok (pyListSet rs)

/-! ### Runtime routing (`Runtime.compute_route`), for C8. -/

/-- The named theories of the `Runtime` registry.  `compute_route` compares
the target handle by object identity against the registry entries; the
registry holds one distinct object per name, so names stand in for
handles. -/
inductive ThName where
  | database | classify | enforcement | action | service
deriving DecidableEq, Repr

/-- `Runtime.compute_route(formula, theory, operation)`: an `Atom` aimed at
the classify or database theory is rerouted to enforcement; everything else
keeps its declared target.  The `operation` string is unused by the
source. -/
def computeRoute (f : Formula) (target : ThName) : ThName :=
  match f with
  | Formula.atomF _ =>
      if target = ThName.classify ∨ target = ThName.database then ThName.enforcement
      else target
  | Formula.ruleF _ => target

/-! ### Concrete instances used by the theorems below. -/

/-- A proof supporting `q(1)` via the binding `x ↦ 1`. -/
def pfP : PfProof := ⟨[("x", PTerm.obj "1")], ⟨⟨"p", [PTerm.var "x"], false⟩, []⟩⟩

/-- A structurally different proof (binding `x ↦ 2`). -/
def pfQ : PfProof := ⟨[("x", PTerm.obj "2")], ⟨⟨"p", [PTerm.var "x"], false⟩, []⟩⟩

/-- A database holding only `q(1)`, supported by `pfP`. -/
def c2db : Database := fupdate (fun _ => []) "q" [⟨["1"], [pfP]⟩]

/-- The ground atom `q(1)`. -/
def qa1 : Lit := ⟨"q", [PTerm.obj "1"], false⟩

/-- The rule `p(x, y) :- q(x, z), q(z, y)` — a self-join on `(q, 2)`. -/
def rsj : PRule :=
  ⟨⟨"p", [PTerm.var "x", PTerm.var "y"], false⟩,
   [⟨"q", [PTerm.var "x", PTerm.var "z"], false⟩,
    ⟨"q", [PTerm.var "z", PTerm.var "y"], false⟩]⟩

/-- `DeltaRuleTheory` state after inserting `rsj` into the empty theory. -/
def drTh1 : DRTheory := drInsert emptyDR rsj

/-- State after then deleting `rsj` (the caller's rule object having been
renamed in place by the insert, per C10). -/
def drTh2 : DRTheory := drDelete drTh1 (mutatedRule rsj)

/-- The literal `p(x)`. -/
def px : Lit := ⟨"p", [PTerm.var "x"], false⟩

/-- The literal `q(x)`. -/
def qx : Lit := ⟨"q", [PTerm.var "x"], false⟩

/-- The literal `r(x)`. -/
def rx : Lit := ⟨"r", [PTerm.var "x"], false⟩

/-- A theory with the two rules `p(x) :- q(x)` and `p(x) :- r(x)` and the
facts `q(1)` and `r(1)`: the query `p(x)` has two derivations of the same
instance. -/
def thy4 : NRTheory := NRTheory.mk
  [("p", [⟨px, [qx]⟩, ⟨px, [rx]⟩]),
   ("q", [⟨⟨"q", [PTerm.obj "1"], false⟩, []⟩]),
   ("r", [⟨⟨"r", [PTerm.obj "1"], false⟩, []⟩])] []

/-- A theory holding only the fact `q(1)`. -/
def th7 : NRTheory := NRTheory.mk [("q", [⟨⟨"q", [PTerm.obj "1"], false⟩, []⟩])] []

/-- The negated ground literal `not q(2)`. -/
def negLit2 : Lit := ⟨"q", [PTerm.obj "2"], true⟩

/-- A context whose current literal is `not q(2)`. -/
def ctx7 : Ctx := Ctx.mk [negLit2] 0 0 none 0

/-- A find-all caller over `th7` with no save predicate. -/
def cl7 : Caller := ⟨[], 0, th7, true, none⟩

/-- The empty environment: no unifier holds any binding. -/
def emptyEnv : Env := fun _ => []

/-! ## Theorems

One theorem (plus counterexample/witness where required) per claim of the
specification review, with shared helper lemmas in between. -/

/-- C9: equality between two Events built by the constructor dereferences the
never-assigned `atom` attribute, so the comparison raises `AttributeError`
instead of returning a boolean, for every pair of constructed Events. -/
theorem c9_event_eq_raises (f1 f2 : Formula) (i1 i2 : Bool) (p1 p2 : List PfProof) :
    eventEq (eventInit f1 i1 p1) (eventInit f2 i2 p2) =
      Except.error "AttributeError: atom" := rfl

/-- C8: `compute_route` reroutes exactly the atomic modifications — an Atom
aimed at the classify or database theory goes to enforcement, a Rule keeps
its declared target, and an Atom aimed at any other theory keeps its declared
target. -/
theorem c8_compute_route (a : Lit) (r : PRule) (t : ThName) :
    computeRoute (Formula.atomF a) ThName.classify = ThName.enforcement ∧
    computeRoute (Formula.atomF a) ThName.database = ThName.enforcement ∧
    computeRoute (Formula.ruleF r) t = t ∧
    (t ≠ ThName.classify → t ≠ ThName.database → computeRoute (Formula.atomF a) t = t) := by
  refine ⟨rfl, rfl, rfl, ?_⟩
  intro h1 h2
  simp [computeRoute, h1, h2]

/-- Witness for C8 at a concrete atom and the action theory. -/
theorem c8_witness :
    (ThName.action ≠ ThName.classify ∧ ThName.action ≠ ThName.database) ∧
    computeRoute (Formula.atomF qa1) ThName.action = ThName.action :=
  ⟨⟨by decide, by decide⟩,
   (c8_compute_route qa1 rsj ThName.action).2.2.2 (by decide) (by decide)⟩

/-- Counterexample to C2 as stated: deleting `q(1)` — which is present —
with a supplied proof that is not among the stored proofs is neither "a
delete of a tuple not present" nor an insert, yet `modify` returns the empty
list and leaves the database unchanged instead of changing it and returning
an event. -/
theorem c2_counterexample :
    c2db "q" = [⟨["1"], [pfP]⟩] ∧
    argumentNames qa1 = ["1"] ∧
    pcAllIn [pfQ] [pfP] = false ∧
    dbModify c2db qa1 false [pfQ] = ([], c2db) :=
  ⟨rfl, rfl, by decide, rfl⟩

/-- Counterexample to C5 as stated: the self-join rule
`p(x,y) :- q(x,z), q(z,y)` has 2 body literals, but `compute_delta_rules`
emits 3 delta rules (the synthetic wrapping rule introduced by self-join
elimination contributes one of its own). -/
theorem c5_counterexample :
    rsj.body.length = 2 ∧ (computeDeltaRules [rsj]).length = 3 :=
  ⟨rfl, rfl⟩

/-- Counterexample to C6 as stated: inserting the self-join rule `rsj` into
the empty DeltaRuleTheory and then deleting it leaves the synthetic table
`___q_2_1` registered as a view with a live delta rule triggered by `q`, so
the indexed state is not restored. -/
theorem c6_counterexample :
    emptyDR.views "___q_2_1" = 0 ∧ drTh2.views "___q_2_1" = 1 ∧
    emptyDR.contents "q" = [] ∧
    drTh2.contents "q" =
      [⟨⟨"q", nVars 2, false⟩, ⟨"___q_2_1", nVars 2, false⟩, [],
        ⟨⟨"___q_2_1", nVars 2, false⟩, [⟨"q", nVars 2, false⟩]⟩⟩] :=
  ⟨rfl, rfl, rfl, by decide⟩

/-- C4 (the code at the failing input): over `thy4` the query `p(x)` is
provable through both rules, and `top_down_abduction` returns the two
structurally equal results — `list(set(...))` deduplicates by object
identity, not structural equality, so the duplicate survives. -/
theorem c4_duplicate_results :
    topDownAbduction thy4 30 ["x"] [px] true none =
      Except.ok [⟨[("x", PTerm.obj "1")], []⟩, ⟨[("x", PTerm.obj "1")], []⟩] := by
  rfl

/-- Every tuple field in the output of the insert loop is the new tuple's or
one already stored. -/
theorem mem_insertTuples_tuple (x : DBTuple) (l : List DBTuple) :
    ∀ e ∈ insertTuples x l, e.tuple = x.tuple ∨ e.tuple ∈ l.map DBTuple.tuple := by
  induction l with
  | nil =>
      intro e he
      simp [insertTuples] at he
      simp [he]
  | cons d rest ih =>
      intro e he
      by_cases h : d.tuple = x.tuple
      · simp [insertTuples, h] at he
        rcases he with he | he
        · left; simp [he]
        · right; simp [List.mem_map]
          exact Or.inr ⟨e, he, rfl⟩
      · simp [insertTuples, h] at he
        rcases he with he | he
        · right; simp [he]
        · rcases ih e he with h1 | h1
          · left; exact h1
          · right; simp at h1 ⊢; exact Or.inr h1

/-- The insert loop preserves pairwise distinctness of tuple fields. -/
theorem insertTuples_pairwise (x : DBTuple) (l : List DBTuple)
    (h : l.Pairwise (fun d e => d.tuple ≠ e.tuple)) :
    (insertTuples x l).Pairwise (fun d e => d.tuple ≠ e.tuple) := by
  induction l with
  | nil => simp [insertTuples]
  | cons d rest ih =>
      rcases List.pairwise_cons.mp h with ⟨hhead, htail⟩
      by_cases hd : d.tuple = x.tuple
      · rw [insertTuples, if_pos hd]
        exact List.pairwise_cons.mpr ⟨fun e he => hhead e he, htail⟩
      · rw [insertTuples, if_neg hd]
        refine List.pairwise_cons.mpr ⟨?_, ih htail⟩
        intro e he
        rcases mem_insertTuples_tuple x rest e he with h1 | h1
        · rw [h1]; exact hd
        · rcases List.mem_map.mp h1 with ⟨e', he', hte⟩
          intro hde
          exact hhead e' he' (hde.trans hte.symm)

/-- Every tuple field in the output of the delete loop was already stored. -/
theorem mem_deleteTuples_tuple (x : DBTuple) (l : List DBTuple) :
    ∀ e ∈ deleteTuples x l, e.tuple ∈ l.map DBTuple.tuple := by
  induction l with
  | nil => intro e he; simp [deleteTuples] at he
  | cons d rest ih =>
      intro e he
      by_cases h : d.tuple = x.tuple
      · rw [deleteTuples, if_pos h] at he
        by_cases hrem : (pcSub d.proofs x.proofs).isEmpty
        · simp [hrem] at he
          simp [List.mem_map]
          exact Or.inr ⟨e, he, rfl⟩
        · simp [hrem] at he
          rcases he with he | he
          · simp [he]
          · simp [List.mem_map]
            exact Or.inr ⟨e, he, rfl⟩
      · rw [deleteTuples, if_neg h] at he
        rcases List.mem_cons.mp he with he | he
        · simp [he]
        · have hmem := ih e he
          simp [List.mem_map] at hmem ⊢
          rcases hmem with ⟨e', he', hte⟩
          exact Or.inr ⟨e', he', hte⟩

/-- The delete loop preserves pairwise distinctness of tuple fields. -/
theorem deleteTuples_pairwise (x : DBTuple) (l : List DBTuple)
    (h : l.Pairwise (fun d e => d.tuple ≠ e.tuple)) :
    (deleteTuples x l).Pairwise (fun d e => d.tuple ≠ e.tuple) := by
  induction l with
  | nil => simp [deleteTuples]
  | cons d rest ih =>
      rcases List.pairwise_cons.mp h with ⟨hhead, htail⟩
      by_cases hd : d.tuple = x.tuple
      · rw [deleteTuples, if_pos hd]
        by_cases hrem : (pcSub d.proofs x.proofs).isEmpty
        · simp [hrem]; exact htail
        · simp [hrem]
          exact ⟨fun e he => hhead e he, htail⟩
      · rw [deleteTuples, if_neg hd]
        refine List.pairwise_cons.mpr ⟨?_, ih htail⟩
        intro e he
        rcases List.mem_map.mp (mem_deleteTuples_tuple x rest e he) with ⟨e', he', hte⟩
        intro hde
        exact hhead e' he' (hde.trans hte.symm)

/-- One Database operation preserves the uniqueness invariant. -/
theorem applyOp_uniq (db : Database) (op : DbOp) (h : TupleUniq db) :
    TupleUniq (applyOp db op) := by
  have hins : ∀ (a : Lit) (ps : List PfProof), TupleUniq (dbInsert db a ps) := by
    intro a ps t
    unfold dbInsert fupdate
    by_cases ht : t = a.table
    · simp only [ht, if_pos rfl]
      exact insertTuples_pairwise _ _ (h a.table)
    · simp only [if_neg ht]
      exact h t
  have hdel : ∀ (a : Lit) (ps : List PfProof), TupleUniq (dbDelete db a ps) := by
    intro a ps t
    unfold dbDelete fupdate
    by_cases ht : t = a.table
    · simp only [ht, if_pos rfl]
      exact deleteTuples_pairwise _ _ (h a.table)
    · simp only [if_neg ht]
      exact h t
  cases op with
  | insOp a ps => exact hins a ps
  | delOp a ps => exact hdel a ps
  | modOp a ins ps =>
      unfold applyOp dbModify
      by_cases hn : isNoop db a ins ps
      · simp only [if_pos hn]; exact h
      · simp only [if_neg hn]
        cases ins with
        | true => exact hins a ps
        | false => exact hdel a ps

/-- Sequences of operations preserve the uniqueness invariant. -/
theorem applyOps_uniq (ops : List DbOp) : ∀ (db : Database), TupleUniq db →
    TupleUniq (applyOps db ops) := by
  induction ops with
  | nil => intro db h; exact h
  | cons op rest ih =>
      intro db h
      exact ih (applyOp db op) (applyOp_uniq db op h)

/-- C3: starting from any database satisfying the uniqueness invariant, the
invariant holds after each step of any sequence of insert, delete and modify
operations — an insert of an existing tuple merges proofs instead of
appending a duplicate. -/
theorem c3_database_uniqueness (db : Database) (ops : List DbOp)
    (h : TupleUniq db) :
    ∀ n, TupleUniq (applyOps db (ops.take n)) :=
  fun n => applyOps_uniq (ops.take n) db h

/-- Witness for C3: the empty database, two inserts of `q(1)` (the second
with a new proof) and a delete. -/
theorem c3_witness :
    TupleUniq (fun _ => []) ∧
    TupleUniq (applyOps (fun _ => [])
      ([DbOp.insOp qa1 [], DbOp.insOp qa1 [pfP], DbOp.delOp qa1 []].take 3)) :=
  ⟨fun _ => List.Pairwise.nil,
   c3_database_uniqueness (fun _ => []) [DbOp.insOp qa1 [], DbOp.insOp qa1 [pfP], DbOp.delOp qa1 []]
     (fun _ => List.Pairwise.nil) 3⟩

/-- The `is_noop` scan succeeds exactly when some stored tuple matches the
event's tuple with the event's proofs contained in its stored proofs. -/
theorem noopScan_iff (raw : List String) (ps : List PfProof) (l : List DBTuple) :
    noopScanList raw ps l = true ↔
      ∃ d ∈ l, d.tuple = raw ∧ pcAllIn ps d.proofs = true := by
  induction l with
  | nil => simp [noopScanList]
  | cons d rest ih =>
      rw [noopScanList]
      by_cases h : d.tuple = raw ∧ pcAllIn ps d.proofs
      · simp only [if_pos h]
        constructor
        · intro _
          exact ⟨d, List.mem_cons_self d rest, h.1, h.2⟩
        · intro _
          trivial
      · simp only [if_neg h]
        rw [ih]
        constructor
        · rintro ⟨e, he, h1, h2⟩
          exact ⟨e, List.mem_cons_of_mem d he, h1, h2⟩
        · rintro ⟨e, he, h1, h2⟩
          rcases List.mem_cons.mp he with rfl | he'
          · exact absurd ⟨h1, h2⟩ h
          · exact ⟨e, he', h1, h2⟩

/-- Union keeps everything already present. -/
theorem mem_pcUnion_left (ys : List PfProof) :
    ∀ (xs : List PfProof) (p : PfProof), p ∈ xs → p ∈ pcUnion xs ys := by
  induction ys with
  | nil => intro xs p h; simpa [pcUnion] using h
  | cons y rest ih =>
      intro xs p h
      show p ∈ pcUnion (if xs.contains y then xs else xs ++ [y]) rest
      by_cases hc : xs.contains y
      · rw [if_pos hc]; exact ih xs p h
      · rw [if_neg hc]; exact ih (xs ++ [y]) p (List.mem_append_left _ h)

/-- Union absorbs every element of the right operand. -/
theorem mem_pcUnion_right (ys : List PfProof) :
    ∀ (xs : List PfProof) (p : PfProof), p ∈ ys → p ∈ pcUnion xs ys := by
  induction ys with
  | nil => intro xs p h; simp at h
  | cons y rest ih =>
      intro xs p h
      show p ∈ pcUnion (if xs.contains y then xs else xs ++ [y]) rest
      rcases List.mem_cons.mp h with hpy | h'
      · by_cases hc : xs.contains y
        · rw [if_pos hc, hpy]
          exact mem_pcUnion_left rest xs y (List.elem_iff.mp hc)
        · rw [if_neg hc, hpy]
          exact mem_pcUnion_left rest (xs ++ [y]) y (List.mem_append_right _ (List.mem_singleton.mpr rfl))
      · by_cases hc : xs.contains y
        · rw [if_pos hc]; exact ih xs p h'
        · rw [if_neg hc]; exact ih (xs ++ [y]) p h'

/-- A non-noop insert changes the stored tuple list. -/
theorem insertTuples_changes (raw : List String) (ps : List PfProof) (l : List DBTuple)
    (hscan : noopScanList raw ps l = false) :
    insertTuples ⟨raw, ps⟩ l ≠ l := by
  induction l with
  | nil => simp [insertTuples]
  | cons d rest ih =>
      rw [noopScanList] at hscan
      by_cases hcond : d.tuple = raw ∧ pcAllIn ps d.proofs
      · rw [if_pos hcond] at hscan; exact absurd hscan (by simp)
      · rw [if_neg hcond] at hscan
        by_cases hd : d.tuple = raw
        · have hpc : pcAllIn ps d.proofs = false := by
            cases hval : pcAllIn ps d.proofs with
            | false => rfl
            | true => exact absurd ⟨hd, hval⟩ hcond
          rw [insertTuples, if_pos hd]
          intro heq
          have hhead : (⟨d.tuple, pcUnion d.proofs ps⟩ : DBTuple) = d := (List.cons_eq_cons.mp heq).1
          have hproofs : pcUnion d.proofs ps = d.proofs := by
            have := congrArg DBTuple.proofs hhead
            simpa using this
          have hex : ∃ p ∈ ps, p ∉ d.proofs := by
            have h1 := List.all_eq_false.mp hpc
            rcases h1 with ⟨p, hp, hnc⟩
            exact ⟨p, hp, fun hm => hnc (List.elem_eq_true_of_mem hm)⟩
          rcases hex with ⟨p, hp, hnm⟩
          have hpmem : p ∈ pcUnion d.proofs ps := mem_pcUnion_right ps d.proofs p hp
          rw [hproofs] at hpmem
          exact hnm hpmem
        · rw [insertTuples, if_neg hd]
          intro heq
          exact ih hscan (List.cons_eq_cons.mp heq).2

/-- Subtracting nothing leaves a proof collection unchanged. -/
theorem pcSub_nil (xs : List PfProof) : pcSub xs [] = xs := by
  simp [pcSub]

/-- Updating a key with its current value is the identity. -/
theorem fupdate_self {α : Type} (f : String → α) (k : String) :
    fupdate f k (f k) = f := by
  funext x
  unfold fupdate
  by_cases h : x = k <;> simp [h]

/-- A non-noop delete with a nonempty proof list changes the stored tuple
list (uniqueness makes the scanned match the tuple the delete loop edits). -/
theorem deleteTuples_changes (raw : List String) (ps : List PfProof) (l : List DBTuple)
    (hpw : l.Pairwise (fun d e => d.tuple ≠ e.tuple))
    (hscan : noopScanList raw ps l = true) (hps : ps ≠ []) :
    deleteTuples ⟨raw, ps⟩ l ≠ l := by
  induction l with
  | nil => simp [noopScanList] at hscan
  | cons d rest ih =>
      rcases List.pairwise_cons.mp hpw with ⟨hhead, htail⟩
      rw [noopScanList] at hscan
      by_cases hd : d.tuple = raw
      · by_cases hpc : pcAllIn ps d.proofs
        · rcases List.exists_mem_of_ne_nil ps hps with ⟨p, hp⟩
          have hpd : p ∈ d.proofs := by
            have hct := List.all_eq_true.mp hpc p hp
            exact List.elem_iff.mp (by simpa using hct)
          have hpnot : p ∉ pcSub d.proofs ps := by
            intro hmem
            have hfilt := List.of_mem_filter hmem
            simp at hfilt
            exact hfilt hp
          have hsub_ne : pcSub d.proofs ps ≠ d.proofs := by
            intro heq
            rw [heq] at hpnot
            exact hpnot hpd
          rw [deleteTuples, if_pos hd]
          by_cases hrem : (pcSub d.proofs ps).isEmpty
          · simp only [hrem, if_pos rfl]
            intro h
            exact List.cons_ne_self d rest h.symm
          · simp only [hrem]
            rw [if_neg (by simp [hrem])]
            intro heq
            have hhead2 : (⟨d.tuple, pcSub d.proofs ps⟩ : DBTuple) = d := (List.cons_eq_cons.mp heq).1
            have := congrArg DBTuple.proofs hhead2
            simp at this
            exact hsub_ne this
        · exfalso
          rw [if_neg (by intro hcond; exact hpc hcond.2)] at hscan
          rcases (noopScan_iff raw ps rest).mp hscan with ⟨e, he, h1, _⟩
          exact hhead e he (hd.trans h1.symm)
      · rw [if_neg (by intro hcond; exact hd hcond.1)] at hscan
        rw [deleteTuples, if_neg hd]
        intro heq
        exact ih htail hscan (List.cons_eq_cons.mp heq).2

/-- A delete carrying no proofs: the edited tuple is the unique match; the
tuple disappears when its stored proofs are empty and the list is unchanged
otherwise. -/
theorem deleteTuples_nilProofs (raw : List String) (l : List DBTuple)
    (hpw : l.Pairwise (fun d e => d.tuple ≠ e.tuple)) :
    ∀ d ∈ l, d.tuple = raw →
      ((d.proofs = [] → deleteTuples ⟨raw, []⟩ l ≠ l) ∧
       (d.proofs ≠ [] → deleteTuples ⟨raw, []⟩ l = l)) := by
  induction l with
  | nil => intro d hd; simp at hd
  | cons e rest ih =>
      rcases List.pairwise_cons.mp hpw with ⟨hhead, htail⟩
      intro d hd hdt
      rcases List.mem_cons.mp hd with rfl | hd'
      · rw [deleteTuples, if_pos hdt, pcSub_nil]
        constructor
        · intro hnil
          rw [hnil]
          simp only [List.isEmpty_nil, if_pos rfl]
          intro h
          exact List.cons_ne_self d rest h.symm
        · intro hnn
          rw [if_neg (by simpa [List.isEmpty_iff] using hnn)]
      · have hne : e.tuple ≠ raw := fun h => hhead d hd' (h.trans hdt.symm)
        rw [deleteTuples, if_neg hne]
        rcases ih htail d hd' hdt with ⟨h1, h2⟩
        constructor
        · intro hnil heq
          exact h1 hnil (List.cons_eq_cons.mp heq).2
        · intro hnn
          rw [h2 hnn]

/-- Reading an updated key gives the new value. -/
theorem fupdate_at {α : Type} (f : String → α) (k : String) (v : α) :
    fupdate f k v k = v := by
  unfold fupdate
  simp

/-- C2 as amended: `modify` returns `[]` and leaves the database unchanged
exactly when `is_noop` holds, where for an insert `is_noop` means the tuple
is present with the supplied proofs contained in the stored proofs, and for a
delete it means no such containing match exists (so a delete of a present
tuple whose supplied proofs are not all stored is also a noop); every other
call returns the one-element echo list and changes the database, except a
delete with an empty supplied proof list of a tuple whose stored proofs are
nonempty, which returns the echo but leaves the database unchanged. -/
theorem c2_modify_amended (db : Database) (a : Lit) (ins : Bool) (ps : List PfProof)
    (hU : TupleUniq db) :
    (isNoop db a ins ps = true → dbModify db a ins ps = ([], db)) ∧
    (isNoop db a ins ps = false →
      (dbModify db a ins ps).1 = [eventInit (Formula.atomF a) ins ps]) ∧
    (ins = true → (isNoop db a ins ps = true ↔
        ∃ d ∈ db a.table, d.tuple = argumentNames a ∧ pcAllIn ps d.proofs = true)) ∧
    (ins = false → (isNoop db a ins ps = true ↔
        ¬ ∃ d ∈ db a.table, d.tuple = argumentNames a ∧ pcAllIn ps d.proofs = true)) ∧
    (isNoop db a ins ps = false → ins = true → (dbModify db a ins ps).2 ≠ db) ∧
    (isNoop db a ins ps = false → ins = false → ps ≠ [] →
      (dbModify db a ins ps).2 ≠ db) ∧
    (isNoop db a ins ps = false → ins = false → ps = [] →
      ∀ d ∈ db a.table, d.tuple = argumentNames a →
        ((d.proofs = [] → (dbModify db a ins ps).2 ≠ db) ∧
         (d.proofs ≠ [] → (dbModify db a ins ps).2 = db))) := by
  refine ⟨?_, ?_, ?_, ?_, ?_, ?_, ?_⟩
  · intro h
    unfold dbModify
    rw [if_pos h]
  · intro h
    unfold dbModify
    rw [if_neg (by simp [h])]
  · intro hins
    subst hins
    show noopScanList (argumentNames a) ps (db a.table) = true ↔ _
    exact noopScan_iff _ _ _
  · intro hins
    subst hins
    have hb := noopScan_iff (argumentNames a) ps (db a.table)
    show (!noopScanList (argumentNames a) ps (db a.table)) = true ↔ _
    cases hval : noopScanList (argumentNames a) ps (db a.table) with
    | true =>
        simp only [hval, Bool.not_true]
        constructor
        · intro h; exact absurd h (by simp)
        · intro h; exact absurd (hb.mp hval) h
    | false =>
        simp only [hval, Bool.not_false]
        constructor
        · intro _ hex
          exact absurd (hb.mpr hex) (by simp [hval])
        · intro _; trivial
  · intro hno hins
    subst hins
    have hscan : noopScanList (argumentNames a) ps (db a.table) = false := by
      unfold isNoop at hno
      simpa using hno
    have h2 : (dbModify db a true ps).2 = dbInsert db a ps := by
      unfold dbModify
      rw [if_neg (by simp [hno])]
      simp
    rw [h2]
    intro heq
    have hfun := congrFun heq a.table
    unfold dbInsert at hfun
    rw [fupdate_at] at hfun
    exact insertTuples_changes _ _ _ hscan hfun
  · intro hno hins hps
    subst hins
    have hscan : noopScanList (argumentNames a) ps (db a.table) = true := by
      unfold isNoop at hno
      simpa using hno
    have h2 : (dbModify db a false ps).2 = dbDelete db a ps := by
      unfold dbModify
      rw [if_neg (by simp [hno])]
      simp
    rw [h2]
    intro heq
    have hfun := congrFun heq a.table
    unfold dbDelete at hfun
    rw [fupdate_at] at hfun
    exact deleteTuples_changes _ _ _ (hU a.table) hscan hps hfun
  · intro hno hins hps
    subst hins
    subst hps
    have h2 : (dbModify db a false []).2 = dbDelete db a [] := by
      unfold dbModify
      rw [if_neg (by simp [hno])]
      simp
    intro d hd hdt
    rcases deleteTuples_nilProofs (argumentNames a) (db a.table) (hU a.table) d hd hdt
      with ⟨h1, hsame⟩
    constructor
    · intro hnil heq
      rw [h2] at heq
      have hfun := congrFun heq a.table
      unfold dbDelete at hfun
      rw [fupdate_at] at hfun
      exact h1 hnil hfun
    · intro hnn
      rw [h2]
      unfold dbDelete
      rw [hsame hnn]
      exact fupdate_self db a.table

/-- Witness for C2's amended claim: inserting `q(1)` with a genuinely new
proof into `c2db` is not a noop and changes the database. -/
theorem c2_witness :
    TupleUniq c2db ∧ isNoop c2db qa1 true [pfQ] = false ∧
    (dbModify c2db qa1 true [pfQ]).2 ≠ c2db := by
  have hU : TupleUniq c2db := by
    intro t
    by_cases h : t = "q" <;> simp [c2db, fupdate, h]
  exact ⟨hU, by decide,
    (c2_modify_amended c2db qa1 true [pfQ] hU).2.2.2.2.1 (by decide) rfl⟩

/-- Lookup of the key just written. -/
theorem lookup_cons_eq {β : Type} (k : String × Nat) (v : β)
    (rest : List ((String × Nat) × β)) :
    List.lookup k ((k, v) :: rest) = some v := by
  simp [List.lookup]

/-- Lookup skips a different key. -/
theorem lookup_cons_ne {β : Type} (k k0 : String × Nat) (hne : k ≠ k0) (v : β)
    (rest : List ((String × Nat) × β)) :
    List.lookup k ((k0, v) :: rest) = List.lookup k rest := by
  have hb : (k == k0) = false := beq_eq_false_iff_ne.mpr hne
  simp [List.lookup, hb]

/-- Lookup after an occurrence-dict update. -/
theorem aset_lookup (xs : List ((String × Nat) × Nat)) (k k' : String × Nat) (v : Nat) :
    (aset xs k v).lookup k' = if k' = k then some v else xs.lookup k' := by
  induction xs with
  | nil =>
      by_cases h : k' = k
      · subst h
        rw [if_pos rfl]
        exact lookup_cons_eq k' v []
      · rw [if_neg h]
        show List.lookup k' [(k, v)] = List.lookup k' []
        exact lookup_cons_ne k' k h v []
  | cons kv rest ih =>
      rcases kv with ⟨k0, v0⟩
      simp only [aset]
      by_cases h0 : k0 = k
      · rw [if_pos h0]
        by_cases h : k' = k
        · rw [if_pos h]
          subst h
          exact lookup_cons_eq k' v rest
        · rw [if_neg h]
          rw [lookup_cons_ne k' k h v rest, lookup_cons_ne k' k0 (h0 ▸ h) v0 rest]
      · rw [if_neg h0]
        by_cases h1 : k' = k0
        · rw [if_neg (fun hh => h0 (h1.symm.trans hh))]
          have e1 : List.lookup k' ((k0, v0) :: aset rest k v) = some v0 := by
            rw [h1]
            exact lookup_cons_eq k0 v0 (aset rest k v)
          have e2 : List.lookup k' ((k0, v0) :: rest) = some v0 := by
            rw [h1]
            exact lookup_cons_eq k0 v0 rest
          rw [e1, e2]
        · rw [lookup_cons_ne k' k0 h1 v0 (aset rest k v), ih]
          by_cases h : k' = k
          · rw [if_pos h, if_pos h]
          · rw [if_neg h, if_neg h, lookup_cons_ne k' k0 h1 v0 rest]

/-- On a body whose keys are fresh for the occurrence dict and pairwise
distinct, the elimination loop renames nothing and records no self-join. -/
theorem elimGo_noRepeat (body : List Lit) : ∀ (occ gsj : List ((String × Nat) × Nat)),
    (∀ x ∈ body, occ.lookup (keyOf x) = none) →
    body.Pairwise (fun a b => keyOf a ≠ keyOf b) →
    (elimGo occ gsj body).1 = body ∧ (elimGo occ gsj body).2.2 = gsj := by
  induction body with
  | nil => intro occ gsj _ _; exact ⟨rfl, rfl⟩
  | cons a rest ih =>
      intro occ gsj hocc hpw
      rcases List.pairwise_cons.mp hpw with ⟨hhead, htail⟩
      have hlk : occ.lookup (keyOf a) = none := hocc a (List.mem_cons_self a rest)
      have hocc' : ∀ x ∈ rest, (aset occ (keyOf a) 1).lookup (keyOf x) = none := by
        intro x hx
        rw [aset_lookup]
        rw [if_neg (fun h => hhead x hx h.symm)]
        exact hocc x (List.mem_cons_of_mem a hx)
      obtain ⟨h1, h2⟩ := ih (aset occ (keyOf a) 1) gsj hocc' htail
      rcases hE : elimGo (aset occ (keyOf a) 1) gsj rest with ⟨r', o', g'⟩
      rw [hE] at h1 h2
      constructor
      · simp [elimGo, hlk, hE]
        exact h1
      · simp [elimGo, hlk, hE]
        exact h2

/-- Self-join elimination leaves a self-join-free rule untouched and adds no
wrapping rules. -/
theorem elimSelf_single (r : PRule) (h : NoSelfJoin r) :
    eliminateSelfJoins [r] = [r] := by
  by_cases ha : r.isAtomB
  · simp [eliminateSelfJoins, elimLoop, ha, wrapRules]
  · obtain ⟨h1, h2⟩ := elimGo_noRepeat r.body [] [] (fun x _ => rfl) h
    rcases hE : elimGo [] [] r.body with ⟨b', o', g'⟩
    rw [hE] at h1 h2
    simp only at h1 h2
    simp [eliminateSelfJoins, elimLoop, ha, hE, h1, h2, wrapRules]

/-- A self-join-free rule object is not renamed by the elimination. -/
theorem mutatedRule_noSelfJoin (r : PRule) (h : NoSelfJoin r) :
    mutatedRule r = r := by
  rw [mutatedRule, elimSelf_single r h]

/-- `compute_delta_rules` on one self-join-free rule. -/
theorem computeDeltaRules_noSelfJoin (r : PRule) (h : NoSelfJoin r) :
    computeDeltaRules [r] = if r.isAtomB then [] else deltaDecomp r := by
  rw [computeDeltaRules, elimSelf_single r h]
  by_cases ha : r.isAtomB <;> simp [ha]

/-- C5 as amended: for a self-join-free source rule with n body literals,
`compute_delta_rules` emits exactly n delta rules, the i-th having body
literal i as trigger (polarity preserved), the body with literal i removed
as body, the rule's head as head, and the rule as original; zero-body rules
yield none.  (A rule containing a self-join additionally yields one delta
rule per synthetic wrapping rule — see the counterexample.) -/
theorem c5_delta_decomposition (r : PRule) (h : NoSelfJoin r) :
    (r.body ≠ [] →
      (computeDeltaRules [r]).length = r.body.length ∧
      ∀ i (hi : i < r.body.length),
        (computeDeltaRules [r]).get? i =
          some ⟨r.body.get ⟨i, hi⟩, r.head, r.body.eraseIdx i, r⟩) ∧
    (r.body = [] → computeDeltaRules [r] = []) := by
  have hc := computeDeltaRules_noSelfJoin r h
  constructor
  · intro hne
    have hna : r.isAtomB = false := by simp [PRule.isAtomB, hne]
    rw [hc, if_neg (by simp [hna])]
    constructor
    · simp [deltaDecomp]
    · intro i hi
      rw [deltaDecomp, List.get?_eq_getElem?, List.getElem?_map, List.getElem?_enum,
        List.getElem?_eq_getElem hi]
      simp
  · intro he
    rw [hc, if_pos (by simp [PRule.isAtomB, he])]

/-- Witness for C5's amended claim at `p(x) :- q(x), not r(x)`. -/
theorem c5_witness :
    NoSelfJoin ⟨px, [qx, ⟨"r", [PTerm.var "x"], true⟩]⟩ ∧
    (computeDeltaRules [⟨px, [qx, ⟨"r", [PTerm.var "x"], true⟩]⟩]).length = 2 :=
  ⟨by decide,
   (((c5_delta_decomposition ⟨px, [qx, ⟨"r", [PTerm.var "x"], true⟩]⟩ (by decide)).1
      (by decide)).1).trans rfl⟩

/-- Pointwise value of the view counter after a run of increments. -/
theorem foldIns_views_apply (ds : List DeltaRule) : ∀ (th : DRTheory) (t : String),
    (ds.foldl insertDelta th).views t =
      th.views t + (ds.map (fun d => d.head.table)).count t := by
  induction ds with
  | nil => intro th t; simp
  | cons d rest ih =>
      intro th t
      show (rest.foldl insertDelta (insertDelta th d)).views t = _
      rw [ih]
      show finc th.views d.head.table t + _ = _
      unfold finc
      by_cases h : t = d.head.table <;>
        (simp [h, List.count_cons, beq_iff_eq]; try omega)

/-- Pointwise value of the view counter after a run of decrements. -/
theorem foldDel_views_apply (ds : List DeltaRule) : ∀ (th : DRTheory) (t : String),
    (ds.foldl deleteDelta th).views t =
      th.views t - (ds.map (fun d => d.head.table)).count t := by
  induction ds with
  | nil => intro th t; simp
  | cons d rest ih =>
      intro th t
      show (rest.foldl deleteDelta (deleteDelta th d)).views t = _
      rw [ih]
      show fdec th.views d.head.table t - _ = _
      unfold fdec
      by_cases h : t = d.head.table <;>
        (simp [h, List.count_cons, beq_iff_eq]; try omega)

/-- Pointwise value of one run of single-key increments. -/
theorem incTables_apply (ts : List String) : ∀ (f : String → Nat) (t : String),
    incTables f ts t = f t + ts.count t := by
  induction ts with
  | nil => intro f t; simp [incTables]
  | cons s rest ih =>
      intro f t
      show incTables (finc f s) rest t = _
      rw [ih]
      unfold finc
      by_cases h : t = s <;>
        (simp [h, List.count_cons, beq_iff_eq]; try omega)

/-- Pointwise value of one run of single-key decrements. -/
theorem decTables_apply (ts : List String) : ∀ (f : String → Nat) (t : String),
    decTables f ts t = f t - ts.count t := by
  induction ts with
  | nil => intro f t; simp [decTables]
  | cons s rest ih =>
      intro f t
      show decTables (fdec f s) rest t = _
      rw [ih]
      unfold fdec
      by_cases h : t = s <;>
        (simp [h, List.count_cons, beq_iff_eq]; try omega)

/-- Pointwise value of the table counter after a run of increments. -/
theorem foldIns_tables_apply (ds : List DeltaRule) : ∀ (th : DRTheory) (t : String),
    (ds.foldl insertDelta th).all_tables t =
      th.all_tables t + (ds.map (fun d => (deltaTables d).count t)).sum := by
  induction ds with
  | nil => intro th t; simp
  | cons d rest ih =>
      intro th t
      show (rest.foldl insertDelta (insertDelta th d)).all_tables t = _
      rw [ih]
      show incTables th.all_tables (deltaTables d) t + _ = _
      rw [incTables_apply]
      simp
      omega

/-- Pointwise value of the table counter after a run of decrements. -/
theorem foldDel_tables_apply (ds : List DeltaRule) : ∀ (th : DRTheory) (t : String),
    (ds.foldl deleteDelta th).all_tables t =
      th.all_tables t - (ds.map (fun d => (deltaTables d).count t)).sum := by
  induction ds with
  | nil => intro th t; simp
  | cons d rest ih =>
      intro th t
      show (rest.foldl deleteDelta (deleteDelta th d)).all_tables t = _
      rw [ih]
      show decTables th.all_tables (deltaTables d) t - _ = _
      rw [decTables_apply]
      simp
      omega

/-- Delta insertion and deletion never touch `originals`. -/
theorem foldIns_originals (ds : List DeltaRule) : ∀ (th : DRTheory),
    (ds.foldl insertDelta th).originals = th.originals := by
  induction ds with
  | nil => intro th; rfl
  | cons d rest ih => intro th; exact ih (insertDelta th d)

/-- Delta deletion never touches `originals`. -/
theorem foldDel_originals (ds : List DeltaRule) : ∀ (th : DRTheory),
    (ds.foldl deleteDelta th).originals = th.originals := by
  induction ds with
  | nil => intro th; rfl
  | cons d rest ih => intro th; exact ih (deleteDelta th d)

/-- The trigger index after a run of insertions: the matching deltas are
appended in order. -/
theorem foldIns_contents (ds : List DeltaRule) : ∀ (th : DRTheory) (t : String),
    (ds.foldl insertDelta th).contents t =
      th.contents t ++ ds.filter (fun d => decide (d.trigger.table = t)) := by
  induction ds with
  | nil => intro th t; simp
  | cons d rest ih =>
      intro th t
      show (rest.foldl insertDelta (insertDelta th d)).contents t = _
      rw [ih]
      show fupdate th.contents d.trigger.table (th.contents d.trigger.table ++ [d]) t ++ _ = _
      unfold fupdate
      by_cases h : t = d.trigger.table
      · simp [h, List.filter_cons]
      · rw [if_neg h, List.filter_cons, if_neg (by simpa using fun hh => h hh.symm)]

/-- The trigger index after a run of deletions: the matching deltas are
erased (by the source's delta equality) in order. -/
theorem foldDel_contents (ds : List DeltaRule) : ∀ (th : DRTheory) (t : String),
    (ds.foldl deleteDelta th).contents t =
      (ds.filter (fun d => decide (d.trigger.table = t))).foldl
        (fun acc e => acc.eraseP (fun x => deltaEq x e)) (th.contents t) := by
  induction ds with
  | nil => intro th t; simp
  | cons d rest ih =>
      intro th t
      show (rest.foldl deleteDelta (deleteDelta th d)).contents t = _
      rw [ih]
      show (rest.filter _).foldl _
          (fupdate th.contents d.trigger.table
            ((th.contents d.trigger.table).eraseP (fun x => deltaEq x d)) t) = _
      unfold fupdate
      by_cases h : t = d.trigger.table
      · rw [if_pos h, List.filter_cons, if_pos (by simp [h.symm])]
        rw [h]
        rfl
      · rw [if_neg h, List.filter_cons, if_neg (by simpa using fun hh => h hh.symm)]

/-- The source's delta equality is exactly equality of the projection that
drops `original`. -/
theorem deltaEq_iff (x d : DeltaRule) :
    deltaEq x d = true ↔ projDelta x = projDelta d := by
  simp [deltaEq, projDelta, Prod.ext_iff, and_assoc]

/-- Erasing by delta equality projects to erasure of the triple. -/
theorem eraseP_map_proj (d : DeltaRule) : ∀ (l : List DeltaRule),
    (l.eraseP (fun x => deltaEq x d)).map projDelta =
      eraseProj (l.map projDelta) (projDelta d) := by
  intro l
  induction l with
  | nil => simp [eraseProj]
  | cons x rest ih =>
      rw [List.eraseP_cons]
      show _ = (projDelta x :: rest.map projDelta).eraseP (fun y => decide (y = projDelta d))
      rw [List.eraseP_cons]
      by_cases h : projDelta x = projDelta d
      · have h1 : deltaEq x d = true := (deltaEq_iff x d).mpr h
        simp [h1, h]
      · have h1 : deltaEq x d = false := by
          cases hval : deltaEq x d with
          | false => rfl
          | true => exact absurd ((deltaEq_iff x d).mp hval) h
        simp [h1, h]
        exact ih

/-- Folded erasure by delta equality projects to folded triple erasure. -/
theorem foldEraseP_map (es : List DeltaRule) : ∀ (l : List DeltaRule),
    ((es.foldl (fun acc e => acc.eraseP (fun x => deltaEq x e)) l).map projDelta) =
      (es.map projDelta).foldl eraseProj (l.map projDelta) := by
  induction es with
  | nil => intro l; rfl
  | cons e rest ih =>
      intro l
      show ((rest.foldl _ (l.eraseP (fun x => deltaEq x e))).map projDelta) = _
      rw [ih, eraseP_map_proj]
      rfl

/-- `eraseProj` is multiset erasure. -/
theorem eraseProj_coe (a : Lit × Lit × List Lit) : ∀ (l : List (Lit × Lit × List Lit)),
    ((eraseProj l a : List (Lit × Lit × List Lit)) : Multiset (Lit × Lit × List Lit)) =
      ((l : List (Lit × Lit × List Lit)) : Multiset (Lit × Lit × List Lit)).erase a := by
  intro l
  induction l with
  | nil => simp [eraseProj]
  | cons x rest ih =>
      unfold eraseProj at ih ⊢
      rw [List.eraseP_cons]
      by_cases h : x = a
      · subst h
        simp only [decide_eq_true_eq, cond_eq_if, if_pos trivial, eq_self_iff_true]
        rw [← Multiset.cons_coe, Multiset.erase_cons_head]
      · simp only [cond_eq_if, decide_eq_true_eq, if_neg h]
        rw [← Multiset.cons_coe, ← Multiset.cons_coe,
          Multiset.erase_cons_tail _ (by simpa using h)]
        rw [← ih]

/-- List-level folded triple erasure agrees with multiset-level erasure. -/
theorem coe_foldErase (es : List (Lit × Lit × List Lit)) :
    ∀ (l : List (Lit × Lit × List Lit)),
    ((es.foldl eraseProj l : List (Lit × Lit × List Lit)) : Multiset (Lit × Lit × List Lit)) =
      es.foldl Multiset.erase (l : Multiset (Lit × Lit × List Lit)) := by
  induction es with
  | nil => intro l; rfl
  | cons e rest ih =>
      intro l
      rw [List.foldl_cons, List.foldl_cons]
      rw [ih (eraseProj l e), eraseProj_coe]

/-- Erasing, in order, every element of a multiset summand removes exactly
that summand. -/
theorem msFoldErase {α : Type} [DecidableEq α] (es : List α) : ∀ (M : Multiset α),
    es.foldl Multiset.erase (M + (es : Multiset α)) = M := by
  induction es with
  | nil => intro M; simp
  | cons e rest ih =>
      intro M
      show rest.foldl Multiset.erase ((M + ((e :: rest : List α) : Multiset α)).erase e) = M
      rw [← Multiset.cons_coe, Multiset.add_cons, Multiset.erase_cons_head]
      exact ih M

/-- C6 as amended: for a rule not already among the theory's originals and
whose body repeats no `(table, arity)` pair, inserting it into a
DeltaRuleTheory and then deleting it restores `originals`, `views` and
`all_tables` exactly and restores every trigger list of `contents` as a
multiset of delta rules under the source's delta-rule equality (which
ignores the `original` field).  A rule containing a self-join instead leaves
the synthetic wrapping delta rule and its index entries behind — see the
counterexample. -/
theorem c6_insert_delete_restore (th : DRTheory) (r : PRule)
    (h1 : r ∉ th.originals) (h2 : NoSelfJoin r) :
    (drDelete (drInsert th r) r).originals = th.originals ∧
    (drDelete (drInsert th r) r).views = th.views ∧
    (drDelete (drInsert th r) r).all_tables = th.all_tables ∧
    ∀ t, ((((drDelete (drInsert th r) r).contents t).map projDelta : List (Lit × Lit × List Lit)) :
            Multiset (Lit × Lit × List Lit)) =
          (((th.contents t).map projDelta : List (Lit × Lit × List Lit)) :
            Multiset (Lit × Lit × List Lit)) := by
  have hmut : mutatedRule r = r := mutatedRule_noSelfJoin r h2
  have hi_orig : (drInsert th r).originals = th.originals ++ [r] := by
    unfold drInsert
    rw [if_neg h1]
    show pySetAdd (((computeDeltaRules [r]).foldl insertDelta th).originals) (mutatedRule r) = _
    rw [foldIns_originals, hmut]
    unfold pySetAdd
    rw [if_neg h1]
  have hi_views : (drInsert th r).views = ((computeDeltaRules [r]).foldl insertDelta th).views := by
    unfold drInsert
    rw [if_neg h1]
  have hi_tabs : (drInsert th r).all_tables =
      ((computeDeltaRules [r]).foldl insertDelta th).all_tables := by
    unfold drInsert
    rw [if_neg h1]
  have hi_cont : (drInsert th r).contents =
      ((computeDeltaRules [r]).foldl insertDelta th).contents := by
    unfold drInsert
    rw [if_neg h1]
  have hmem : r ∈ (drInsert th r).originals := by
    rw [hi_orig]
    exact List.mem_append_right _ (List.mem_singleton.mpr rfl)
  refine ⟨?_, ?_, ?_, ?_⟩
  · have e0 : (drDelete (drInsert th r) r).originals =
        (((computeDeltaRules [r]).foldl deleteDelta (drInsert th r)).originals).erase r := by
      unfold drDelete
      rw [if_pos hmem]
    rw [e0, foldDel_originals, hi_orig, List.erase_append_right _ h1,
      List.erase_cons_head, List.append_nil]
  · have e0 : (drDelete (drInsert th r) r).views =
        ((computeDeltaRules [r]).foldl deleteDelta (drInsert th r)).views := by
      unfold drDelete
      rw [if_pos hmem]
    rw [e0]
    funext t
    rw [foldDel_views_apply, hi_views, foldIns_views_apply]
    omega
  · have e0 : (drDelete (drInsert th r) r).all_tables =
        ((computeDeltaRules [r]).foldl deleteDelta (drInsert th r)).all_tables := by
      unfold drDelete
      rw [if_pos hmem]
    rw [e0]
    funext t
    rw [foldDel_tables_apply, hi_tabs, foldIns_tables_apply]
    omega
  · intro t
    have e0 : (drDelete (drInsert th r) r).contents =
        ((computeDeltaRules [r]).foldl deleteDelta (drInsert th r)).contents := by
      unfold drDelete
      rw [if_pos hmem]
    rw [e0, foldDel_contents, hi_cont, foldIns_contents, foldEraseP_map,
      List.map_append, coe_foldErase, ← Multiset.coe_add]
    exact msFoldErase _ _

/-- Witness for C6's amended claim: insert then delete of `p(x) :- q(x)` on
the empty DeltaRuleTheory. -/
theorem c6_witness :
    ((⟨px, [qx]⟩ : PRule) ∉ emptyDR.originals ∧ NoSelfJoin ⟨px, [qx]⟩) ∧
    (drDelete (drInsert emptyDR ⟨px, [qx]⟩) ⟨px, [qx]⟩).originals = emptyDR.originals ∧
    (drDelete (drInsert emptyDR ⟨px, [qx]⟩) ⟨px, [qx]⟩).views = emptyDR.views ∧
    (drDelete (drInsert emptyDR ⟨px, [qx]⟩) ⟨px, [qx]⟩).all_tables = emptyDR.all_tables ∧
    ∀ t, ((((drDelete (drInsert emptyDR ⟨px, [qx]⟩) ⟨px, [qx]⟩).contents t).map projDelta :
            List (Lit × Lit × List Lit)) : Multiset (Lit × Lit × List Lit)) =
          (((emptyDR.contents t).map projDelta : List (Lit × Lit × List Lit)) :
            Multiset (Lit × Lit × List Lit)) :=
  ⟨⟨by decide, by decide⟩,
   c6_insert_delete_restore emptyDR ⟨px, [qx]⟩ (by decide) (by decide)⟩

/-- C7: when `top_down_eval` reaches a negated literal (outside the save
branch), the literal plugged with the current binding must be ground — a
non-ground plug raises the assertion; a ground one is decided by a nested
evaluation of its complement run with `find_all = false` and `save = none`
(so no literal is saved while proving the negation): the negated literal
fails when the nested evaluation finds a proof — returning failure with no
results added for the caller — and succeeds when it does not, in which case
the search advances by `top_down_finish` on the unchanged context and
binding, adding no new bindings. -/
theorem c7_negation (selfTh : NRTheory) (n : Nat) (ctx : Ctx) (cl : Caller) (env : Env)
    (support : List (Lit × Nat)) (nid : Nat) (lit : Lit)
    (hlit : ctx.literals.get? ctx.literalIndex = some lit)
    (hneg : lit.negated = true)
    (hsave : savePred cl.save lit = false) :
    ((plugLit n env lit ctx.binding).isGroundB = false →
      tdEval selfTh (n + 1) ctx cl env support nid = Except.error groundMsg) ∧
    (∀ rs nid',
      (plugLit n env lit ctx.binding).isGroundB = true →
      tdIncludes selfTh n (Ctx.mk [lit.complement] 0 ctx.binding none (ctx.depth + 1))
          ⟨cl.queryVars, cl.binding, cl.theory, false, none⟩ env [] nid =
        Except.ok (true, rs, nid') →
      tdEval selfTh (n + 1) ctx cl env support nid = Except.ok (false, [], nid')) ∧
    (∀ rs nid',
      (plugLit n env lit ctx.binding).isGroundB = true →
      tdIncludes selfTh n (Ctx.mk [lit.complement] 0 ctx.binding none (ctx.depth + 1))
          ⟨cl.queryVars, cl.binding, cl.theory, false, none⟩ env [] nid =
        Except.ok (false, rs, nid') →
      tdEval selfTh (n + 1) ctx cl env support nid =
        tdFinish selfTh n (some ctx) cl env support nid' false) := by
  refine ⟨?_, ?_, ?_⟩
  · intro hg
    rw [tdEval, hlit]
    simp [hsave, hneg, hg]
  · intro rs nid' hg hnested
    rw [tdEval, hlit]
    simp [hsave, hneg, hg, hnested]
  · intro rs nid' hg hnested
    rw [tdEval, hlit]
    simp [hsave, hneg, hg, hnested]

/-- Witness for C7 at the theory `{q(1)}` and the literal `not q(2)`: the
nested complement evaluation fails, so the negation succeeds by advancing
through `top_down_finish`. -/
theorem c7_witness :
    (ctx7.literals.get? ctx7.literalIndex = some negLit2 ∧ negLit2.negated = true ∧
     savePred cl7.save negLit2 = false ∧
     (plugLit 29 emptyEnv negLit2 ctx7.binding).isGroundB = true ∧
     tdIncludes th7 29 (Ctx.mk [negLit2.complement] 0 ctx7.binding none (ctx7.depth + 1))
        ⟨cl7.queryVars, cl7.binding, cl7.theory, false, none⟩ emptyEnv [] 1 =
       Except.ok (false, [], 2)) ∧
    tdEval th7 30 ctx7 cl7 emptyEnv [] 1 =
      tdFinish th7 29 (some ctx7) cl7 emptyEnv [] 2 false :=
  ⟨⟨rfl, rfl, rfl, rfl, rfl⟩,
   (c7_negation th7 29 ctx7 cl7 emptyEnv [] 1 negLit2 rfl rfl rfl).2.2 [] 2 rfl rfl⟩

/-- A synthetic table name is never the table it wraps (it is strictly
longer). -/
theorem newTableName_ne (t : String) (a k : Nat) : newTableName t a k ≠ t := by
  intro h
  have hl := congrArg String.length h
  simp [newTableName, String.length_append] at hl
  have e1 : "___".length = 3 := rfl
  have e2 : "_".length = 1 := rfl
  omega

/-- Unfolding the body loop at a fresh `(table, arity)` key. -/
theorem elimGo_cons_none (occ gsj : List ((String × Nat) × Nat)) (a : Lit) (rest : List Lit)
    (h : occ.lookup (keyOf a) = none) :
    (elimGo occ gsj (a :: rest)).1 = a :: (elimGo (aset occ (keyOf a) 1) gsj rest).1 := by
  simp [elimGo, h]

/-- Unfolding the body loop at a repeated `(table, arity)` key: the head is
renamed to the synthetic table. -/
theorem elimGo_cons_some (occ gsj : List ((String × Nat) × Nat)) (a : Lit) (rest : List Lit)
    (c : Nat) (h : occ.lookup (keyOf a) = some c) :
    ∃ tail, (elimGo occ gsj (a :: rest)).1 =
      (⟨newTableName a.table a.args.length c, a.args, a.negated⟩ : Lit) :: tail := by
  refine ⟨(elimGo (aset occ (keyOf a) (c + 1))
      (match gsj.lookup (keyOf a) with
       | none => aset gsj (keyOf a) 1
       | some g => aset gsj (keyOf a) (max ((c + 1) - 1) g)) rest).1, ?_⟩
  simp [elimGo, h]

/-- A body containing a key already counted, or an internal repeat, comes
out of the loop with some atom's table renamed to a synthetic name. -/
theorem elimGo_renames (body : List Lit) : ∀ (occ gsj : List ((String × Nat) × Nat)),
    ((∃ x ∈ body, ((occ.lookup (keyOf x)).isSome)) ∨
      ¬ body.Pairwise (fun a b => keyOf a ≠ keyOf b)) →
    ∃ i, ∃ hi : i < body.length, ∃ k,
      (elimGo occ gsj body).1.get? i =
        some ⟨newTableName (body.get ⟨i, hi⟩).table (body.get ⟨i, hi⟩).args.length k,
              (body.get ⟨i, hi⟩).args, (body.get ⟨i, hi⟩).negated⟩ := by
  induction body with
  | nil =>
      intro occ gsj h
      rcases h with ⟨x, hx, _⟩ | h
      · simp at hx
      · exact absurd List.Pairwise.nil h
  | cons a rest ih =>
      intro occ gsj h
      cases hlk : occ.lookup (keyOf a) with
      | some c =>
          rcases elimGo_cons_some occ gsj a rest c hlk with ⟨tail, hE⟩
          refine ⟨0, by simp, c, ?_⟩
          rw [hE]
          rfl
      | none =>
          have hrest : (∃ x ∈ rest, (((aset occ (keyOf a) 1).lookup (keyOf x)).isSome)) ∨
              ¬ rest.Pairwise (fun a b => keyOf a ≠ keyOf b) := by
            rcases h with ⟨x, hx, hs⟩ | hnp
            · rcases List.mem_cons.mp hx with rfl | hx'
              · rw [hlk] at hs
                simp at hs
              · left
                refine ⟨x, hx', ?_⟩
                rw [aset_lookup]
                by_cases hk : keyOf x = keyOf a
                · rw [if_pos hk]
                  simp
                · rw [if_neg hk]
                  exact hs
            · by_cases hp : rest.Pairwise (fun a b => keyOf a ≠ keyOf b)
              · have hnall : ¬ ∀ b ∈ rest, keyOf a ≠ keyOf b := by
                  intro hall
                  exact hnp (List.pairwise_cons.mpr ⟨hall, hp⟩)
                push_neg at hnall
                rcases hnall with ⟨b, hb, hkb⟩
                left
                refine ⟨b, hb, ?_⟩
                rw [aset_lookup, if_pos hkb.symm]
                simp
              · right
                exact hp
          rcases ih (aset occ (keyOf a) 1) gsj hrest with ⟨i, hi, k, hget⟩
          refine ⟨i + 1, by simpa using Nat.succ_lt_succ hi, k, ?_⟩
          rw [elimGo_cons_none occ gsj a rest hlk]
          simpa using hget

/-- The shape of `eliminate_self_joins` on a single proper rule: the
rewritten rule followed by the wrapping rules. -/
theorem elimSingle_structure (r : PRule) (hna : r.isAtomB = false) :
    eliminateSelfJoins [r] =
      ({ head := r.head, body := (elimGo [] [] r.body).1 } : PRule) ::
        wrapRules (elimGo [] [] r.body).2.2 := by
  rcases hE : elimGo [] [] r.body with ⟨b', o', g'⟩
  simp [eliminateSelfJoins, elimLoop, hna, hE]

/-- Every wrapping rule has a one-literal body. -/
theorem wrapRules_mem (gsj : List ((String × Nat) × Nat)) :
    ∀ w ∈ wrapRules gsj, w.body.length = 1 := by
  induction gsj with
  | nil => intro w hw; simp [wrapRules] at hw
  | cons kv rest ih =>
      intro w hw
      rw [wrapRules, List.foldr_cons] at hw
      rcases List.mem_append.mp hw with hw1 | hw2
      · rcases List.mem_map.mp hw1 with ⟨i0, _, hwm⟩
        rw [← hwm]
        rfl
      · exact ih w hw2

/-- Two-element-or-longer lists are exactly those that can fail to be
pairwise. -/
theorem pairwise_of_short {α : Type} (R : α → α → Prop) (l : List α)
    (h : l.length ≤ 1) : l.Pairwise R := by
  cases l with
  | nil => exact List.Pairwise.nil
  | cons x rest =>
      cases rest with
      | nil => simp
      | cons y more => simp at h

/-- C10: `eliminate_self_joins` is not pure in its input — for a rule whose
body repeats a `(table, arity)` pair, the rule object's body atoms are
renamed in place, so after the call the caller's object holds a rule that
differs from the one passed in (some repeated atom's table now bears the
synthetic `___<table>_<arity>_<k>` name), and the rule as originally written
occurs nowhere in the returned list. -/
theorem c10_self_join_mutation (r : PRule) (h : HasSelfJoin r) :
    mutatedRule r ≠ r ∧
    r ∉ eliminateSelfJoins [r] ∧
    ∃ i, ∃ hi : i < r.body.length, ∃ k,
      (mutatedRule r).body.get? i =
        some ⟨newTableName (r.body.get ⟨i, hi⟩).table (r.body.get ⟨i, hi⟩).args.length k,
              (r.body.get ⟨i, hi⟩).args, (r.body.get ⟨i, hi⟩).negated⟩ ∧
      newTableName (r.body.get ⟨i, hi⟩).table (r.body.get ⟨i, hi⟩).args.length k ≠
        (r.body.get ⟨i, hi⟩).table := by
  have hlen2 : 2 ≤ r.body.length := by
    by_contra hc
    push_neg at hc
    exact h (pairwise_of_short _ _ (by omega))
  have hna : r.isAtomB = false := by
    have : r.body ≠ [] := by
      intro he
      rw [he] at hlen2
      simp at hlen2
    simp [PRule.isAtomB, this]
  have hstruct := elimSingle_structure r hna
  have hmr : mutatedRule r = ({ head := r.head, body := (elimGo [] [] r.body).1 } : PRule) := by
    rw [mutatedRule, hstruct]
  obtain ⟨i, hi, k, hget⟩ := elimGo_renames r.body [] [] (Or.inr h)
  have hmb : (mutatedRule r).body = (elimGo [] [] r.body).1 := by rw [hmr]
  have hren := newTableName_ne (r.body.get ⟨i, hi⟩).table (r.body.get ⟨i, hi⟩).args.length k
  have hmut_ne : mutatedRule r ≠ r := by
    intro he
    have hsame : (mutatedRule r).body.get? i = r.body.get? i := by rw [he]
    rw [hmb, hget, List.get?_eq_get hi] at hsame
    have hinj := Option.some.inj hsame
    have htab := congrArg Lit.table hinj
    simp at htab
    exact hren htab
  refine ⟨hmut_ne, ?_, ⟨i, hi, k, by rw [hmb]; exact hget, hren⟩⟩
  rw [hstruct]
  intro hmem
  rcases List.mem_cons.mp hmem with heq | hmemw
  · exact hmut_ne (hmr.trans heq.symm)
  · have hw := wrapRules_mem _ r hmemw
    omega

/-- Witness for C10 at the self-join rule `p(x,y) :- q(x,z), q(z,y)`. -/
theorem c10_witness : HasSelfJoin rsj ∧ mutatedRule rsj ≠ rsj :=
  ⟨by decide, (c10_self_join_mutation rsj (by decide)).1⟩
